import Mathlib

/-!
Verification of the rounding core of the mpmfnum library.

The development shallowly embeds the Rust sources:
 * `src/rational/round.rs` (split_at, round_params, round_prepare,
   round_increment, round_finalize),
 * `src/number.rs` (the `Real` trait and its `split` method),
 * `src/fixed/round.rs` (`FixedContext`: maxval, minval, round_wrap, round),
 * `src/float/number.rs` (`Float::is_infinite`),
 * `src/ieee754/number.rs` (`IEEE754Val`, `into_bits`,
   `From<IEEE754> for RFloat`, `PartialOrd`/`PartialEq`).

Arbitrary-precision integers (`rug::Integer`) are embedded as `Nat`
significands with an explicit sign, combined to `Int` where signed
arithmetic occurs; exponents are `Int`.  A few helpers that the crate
imports from modules not present in the extracted sources (the rounding
mode table, the `RFloat` accessors and ordering, the `Split` constructor,
`util::bitmask`) are modelled from the specification; each such definition
says so in its doc comment.
-/

namespace Mpmfnum

/-- Fuel-driven helper for `bitlen`: number of binary digits of `n`,
computed by repeated halving (structural recursion on the fuel). -/
def bitlenAux : Nat → Nat → Nat
  | _, 0 => 0
  | 0, _ + 1 => 0
  | fuel + 1, n + 1 => bitlenAux fuel ((n + 1) / 2) + 1

/-- Number of significant binary digits of a non-negative integer;
embeds `rug::Integer::significant_bits` (0 for 0, `floor(log2 n) + 1`
otherwise). -/
def bitlen (n : Nat) : Nat :=
  bitlenAux n n

/-- Modelled from the spec: `util::bitmask` (src/util.rs is not among the
extracted sources); §4.1 writes the mask as `(1 << off) - 1`. -/
def bitmask (k : Nat) : Nat :=
  (1 <<< k) - 1

/-- The canonical value type of the kernel (`RFloat` in src/rfloat, called
`Rational` in src/rational): a finite value `(-1)^s * c * 2^exp`, a signed
infinity, or NaN.  The constructors mirror the Rust enum. -/
inductive RFloat where
  | Real (s : Bool) (exp : Int) (c : Nat)
  | PosInfinity
  | NegInfinity
  | Nan
  deriving DecidableEq, Repr

namespace RFloat

/-- Modelled from the spec: `RFloat::is_zero` (the rfloat module is not
among the extracted sources; behaviour fixed by tests/rfloat.rs). -/
def isZero : RFloat → Bool
  | .Real _ _ c => c == 0
  | _ => false

/-- Modelled from the spec: `RFloat::is_finite`. -/
def isFinite : RFloat → Bool
  | .Real _ _ _ => true
  | _ => false

/-- Modelled from the spec: `RFloat::is_infinite`. -/
def isInfinite : RFloat → Bool
  | .PosInfinity | .NegInfinity => true
  | _ => false

/-- Modelled from the spec: `RFloat::is_nar` (not-a-real). -/
def isNar : RFloat → Bool
  | .PosInfinity | .NegInfinity | .Nan => true
  | _ => false

/-- Modelled from the spec: `RFloat::sign` (tests/rfloat.rs: `+Inf` has
sign `false`, `-Inf` has sign `true`, NaN has none). -/
def sign? : RFloat → Option Bool
  | .Real s _ _ => some s
  | .PosInfinity => some false
  | .NegInfinity => some true
  | .Nan => none

/-- The `exp` accessor restricted to the `Real` constructor (the Rust
accessor returns `None` on non-finite values and on zero; here the raw
component is exposed, which is all the theorems below need). -/
def expComponent? : RFloat → Option Int
  | .Real _ exp _ => some exp
  | _ => none

/-- Exact-real interpretation of a finite `RFloat` value:
`(-1)^s * c * 2^exp` as a rational number.  Non-finite values are given
the junk value 0; every statement using `toRat` only applies it to
finite values. -/
def toRat : RFloat → ℚ
  | .Real s _exp c => (if s then (-1 : ℚ) else 1) * (c : ℚ) * (2 : ℚ) ^ _exp
  | _ => 0

end RFloat

/-- Rounding directions, from src/round.rs (`RoundingDirection`). -/
inductive RoundingDirection where
  | ToZero
  | AwayZero
  | ToEven
  | ToOdd
  deriving DecidableEq, Repr

/-- Rounding modes, from src/round.rs (`RoundingMode`). -/
inductive RoundingMode where
  | NearestTiesToEven
  | NearestTiesToAway
  | NearestTiesToOdd
  | ToZero
  | AwayZero
  | ToPositive
  | ToNegative
  | ToEven
  | ToOdd
  deriving DecidableEq, Repr

/-- Modelled from the spec: `RoundingMode::to_direction` (src/round.rs is
not among the extracted sources).  Spec §3: each mode maps, given the sign
of the value (`true` = negative), to `(nearest?, direction)`; the three
nearest modes pair `true` with the corresponding direction; `ToPositive`
becomes `ToZero` for negatives and `AwayZero` for non-negatives, dually
for `ToNegative`; the directed four pass through. -/
def RoundingMode.toDirection : RoundingMode → Bool → Bool × RoundingDirection
  | .NearestTiesToEven, _ => (true, .ToEven)
  | .NearestTiesToAway, _ => (true, .AwayZero)
  | .NearestTiesToOdd, _ => (true, .ToOdd)
  | .ToZero, _ => (false, .ToZero)
  | .AwayZero, _ => (false, .AwayZero)
  | .ToPositive, s => if s then (false, .ToZero) else (false, .AwayZero)
  | .ToNegative, s => if s then (false, .AwayZero) else (false, .ToZero)
  | .ToEven, _ => (false, .ToEven)
  | .ToOdd, _ => (false, .ToOdd)

/-- `Context::round_params` from src/rational/round.rs, lines 131-158.
`e` stands for `num.e().unwrap()` of the finite non-zero input.  The
`(None, None)` arm panics in Rust ("at least one rounding parameter must
be specified"); the panic is modelled as `none`. -/
def roundParams (maxP : Option Nat) (minN : Option Int) (e : Int) :
    Option (Option Nat × Int) :=
  match maxP, minN with
  | none, none => none
  | none, some minN => some (none, minN)
  | some maxP, none => some (some maxP, e - (maxP : Int))
  | some maxP, some minN => some (some maxP, max minN (e - (maxP : Int)))

/-- `Context::split_at` from src/rational/round.rs, lines 98-126, on the
components `(s, exp, c)` of a finite non-zero number; `e` is computed as
`exp + bitlen c - 1` (the `e()` accessor).  Returns `(high, low)`. -/
def splitAt (s : Bool) (exp : Int) (c : Nat) (n : Int) : RFloat × RFloat :=
  let e : Int := exp + (bitlen c : Int) - 1
  if n ≥ e then
    (RFloat.Real s (n + 1) 0, RFloat.Real s exp c)
  else if n < exp then
    (RFloat.Real s exp c, RFloat.Real s n 0)
  else
    let offset := (n - (exp - 1)).toNat
    (RFloat.Real s (n + 1) (c >>> offset), RFloat.Real s exp (c &&& bitmask offset))

/-- `Real::split` from src/number.rs, lines 104-136, instantiated at
`RFloat`.  Non-finite inputs make the Rust code panic on an `unwrap`;
they are mapped to junk. -/
def RFloat.split (v : RFloat) (n : Int) : RFloat × RFloat :=
  match v with
  | .Real s exp c =>
    if c = 0 then
      (RFloat.Real s 0 0, RFloat.Real s 0 0)
    else
      let e : Int := exp + (bitlen c : Int) - 1
      if n ≥ e then
        (RFloat.Real s 0 0, RFloat.Real s exp c)
      else if n < exp then
        (RFloat.Real s exp c, RFloat.Real s 0 0)
      else
        let offset := (n - (exp - 1)).toNat
        (RFloat.Real s (n + 1) (c >>> offset), RFloat.Real s exp (c &&& bitmask offset))
  | _ => (RFloat.Nan, RFloat.Nan)

/-- `RoundPrepareResult` from src/rational/round.rs, lines 9-16: the
truncated high part `(sign, exp, c)` together with the three rounding
bits of the lost low part. -/
structure RoundPrepareResult where
  sign : Bool
  exp : Int
  c : Nat
  halfway : Bool
  quarter : Bool
  sticky : Bool
  deriving DecidableEq, Repr

/-- `Context::round_increment` from src/rational/round.rs, lines 194-248.
The match arms are listed in the source order; Lean's `match`, like
Rust's, takes the first arm that applies. -/
def roundIncrement (sign : Bool) (c : Nat) (halfBit stickyBit : Bool)
    (rm : RoundingMode) : Bool :=
  let d := rm.toDirection sign
  match d.1, halfBit, stickyBit, d.2 with
  | _, false, false, _ => false
  | true, false, _, _ => false
  | true, true, true, _ => true
  | true, true, false, .ToZero => false
  | true, true, false, .AwayZero => true
  | true, true, false, .ToEven => c % 2 == 1
  | true, true, false, .ToOdd => c % 2 == 0
  | false, _, _, .ToZero => false
  | false, _, _, .AwayZero => true
  | false, _, _, .ToEven => c % 2 == 1
  | false, _, _, .ToOdd => c % 2 == 0

/-- `Context::round_finalize` from src/rational/round.rs, lines 253-277:
possibly increment the truncated significand, and on precision overflow
(`significant_bits(c) > p`) shift right by one and bump the exponent. -/
def roundFinalize (split : RoundPrepareResult) (p : Option Nat)
    (rm : RoundingMode) : RFloat :=
  let sign := split.sign
  let halfwayBit := split.halfway
  let stickyBit := split.quarter || split.sticky
  if roundIncrement sign split.c halfwayBit stickyBit rm then
    let c := split.c + 1
    match p with
    | some p =>
      if bitlen c > p then RFloat.Real sign (split.exp + 1) (c >>> 1)
      else RFloat.Real sign split.exp c
    | none => RFloat.Real sign split.exp c
  else
    RFloat.Real sign split.exp split.c

/-- The increment decision exactly as the claim's decision table words it:
never when halfway and the combined sticky are both false (exact); under
nearest modes never when halfway is false, always when halfway and sticky
are both true, and on an exact halfway never for ToZero, always for
AwayZero, iff `c` odd for ToEven, iff `c` even for ToOdd; under directed
modes never for ToZero, always for AwayZero, iff `c` odd for ToEven, iff
`c` even for ToOdd. -/
def roundIncrementSpec (isNearest halfway stickyP : Bool)
    (rd : RoundingDirection) (c : Nat) : Bool :=
  if !halfway && !stickyP then false
  else if isNearest then
    if !halfway then false
    else if stickyP then true
    else
      match rd with
      | .ToZero => false
      | .AwayZero => true
      | .ToEven => c % 2 == 1
      | .ToOdd => c % 2 == 0
  else
    match rd with
    | .ToZero => false
    | .AwayZero => true
    | .ToEven => c % 2 == 1
    | .ToOdd => c % 2 == 0

/-- `round_finalize` as the claim words it: let `s' = quarter OR sticky`,
decide the increment by the table on
`(is_nearest, halfway, s', direction) = mode.to_direction(sign)`, add one
exactly when prescribed, and if `max_p` is given and the incremented
significand has bit length greater than `max_p`, shift the significand
right by one and increment the exponent. -/
def roundFinalizeSpec (split : RoundPrepareResult) (p : Option Nat)
    (rm : RoundingMode) : RFloat :=
  let stickyP := split.quarter || split.sticky
  let d := rm.toDirection split.sign
  if roundIncrementSpec d.1 split.halfway stickyP d.2 split.c then
    let c := split.c + 1
    match p with
    | some p =>
      if bitlen c > p then RFloat.Real split.sign (split.exp + 1) (c >>> 1)
      else RFloat.Real split.sign split.exp c
    | none => RFloat.Real split.sign split.exp c
  else
    RFloat.Real split.sign split.exp split.c

/-- Three-way comparison of integers. -/
def cmpInt (a b : Int) : Ordering :=
  if a < b then .lt else if a = b then .eq else .gt

/-- Three-way comparison of rationals. -/
def cmpRat (a b : ℚ) : Ordering :=
  if a < b then .lt else if a = b then .eq else .gt

/-- Comparison of two finite values `(-1)^s1 * c1 * 2^e1` and
`(-1)^s2 * c2 * 2^e2` by their real value, computed over integers by
aligning the exponents. -/
def cmpReal (s1 : Bool) (e1 : Int) (c1 : Nat) (s2 : Bool) (e2 : Int)
    (c2 : Nat) : Ordering :=
  let m1 : Int := if s1 then -(c1 : Int) else (c1 : Int)
  let m2 : Int := if s2 then -(c2 : Int) else (c2 : Int)
  let d := e1 - e2
  if 0 ≤ d then cmpInt (m1 * 2 ^ d.toNat) m2
  else cmpInt m1 (m2 * 2 ^ (-d).toNat)

/-- Modelled from the spec: the `PartialOrd` instance of `RFloat`
(src/rfloat is not among the extracted sources).  Spec §3: the order is
total on finite and infinite values following real-number order, and NaN
is unordered with everything, including itself (behaviour also fixed by
tests/rfloat.rs `ordering`). -/
def cmpRFloat (x y : RFloat) : Option Ordering :=
  match x, y with
  | .Nan, _ => none
  | _, .Nan => none
  | .PosInfinity, .PosInfinity => some .eq
  | .PosInfinity, _ => some .gt
  | _, .PosInfinity => some .lt
  | .NegInfinity, .NegInfinity => some .eq
  | .NegInfinity, _ => some .lt
  | _, .NegInfinity => some .gt
  | .Real s1 e1 c1, .Real s2 e2 c2 => some (cmpReal s1 e1 c1 s2 e2 c2)

/-- `Overflow` from src/fixed/round.rs, lines 18-25. -/
inductive Overflow where
  | Wrap
  | Saturate
  deriving DecidableEq, Repr

/-- `FixedContext` from src/fixed/round.rs, lines 48-54. -/
structure FixedContext where
  signed : Bool
  scale : Int
  nbits : Nat
  rm : RoundingMode
  overflow : Overflow
  deriving DecidableEq, Repr

/-- The exception flags of the fixed-point format (`fixed::Exceptions`;
src/fixed/number.rs is not among the extracted sources, the fields are
the ones src/fixed/round.rs sets: invalid, overflow, underflow, inexact,
all false by default). -/
structure FixedExceptions where
  invalid : Bool := false
  overflow : Bool := false
  underflow : Bool := false
  inexact : Bool := false
  deriving DecidableEq, Repr

/-- `Fixed` values as built by `FixedContext::round`: a number, the
exception flags, and a back-reference to the context. -/
structure Fixed where
  num : RFloat
  flags : FixedExceptions
  ctx : FixedContext
  deriving DecidableEq, Repr

/-- `FixedContext::maxval` from src/fixed/round.rs, lines 91-107:
`(2^(nbits-1) - 1) * 2^scale` if signed, `(2^nbits - 1) * 2^scale`
otherwise. -/
def FixedContext.maxval (ctx : FixedContext) : Fixed :=
  if ctx.signed then
    { num := RFloat.Real false ctx.scale ((1 <<< (ctx.nbits - 1)) - 1),
      flags := {}, ctx := ctx }
  else
    { num := RFloat.Real false ctx.scale ((1 <<< ctx.nbits) - 1),
      flags := {}, ctx := ctx }

/-- `FixedContext::minval` from src/fixed/round.rs, lines 112-127:
`-2^(nbits-1) * 2^scale` if signed, zero otherwise. -/
def FixedContext.minval (ctx : FixedContext) : Fixed :=
  if ctx.signed then
    { num := RFloat.Real true ctx.scale (1 <<< (ctx.nbits - 1)),
      flags := {}, ctx := ctx }
  else
    { num := RFloat.Real false 0 0, flags := {}, ctx := ctx }

/-- `FixedContext::round_wrap` from src/fixed/round.rs, lines 150-167.
`rug`'s `Rem` truncates toward zero, which is `Int.tmod`.  The caller
guarantees `exp ≥ scale`, so the left shift amount is non-negative. -/
def FixedContext.roundWrap (ctx : FixedContext) (val : RFloat) : RFloat :=
  match val with
  | .Real s vexp c =>
    let offset := vexp - ctx.scale
    let div : Int := 2 ^ ctx.nbits
    let cShifted : Nat := c <<< offset.toNat
    if ctx.signed then
      let shift : Int := 2 ^ (ctx.nbits - 1)
      let m : Int := if s then -(cShifted : Int) else (cShifted : Int)
      let wrapped := Int.tmod (m + shift) div - shift
      RFloat.Real (decide (wrapped < 0)) ctx.scale wrapped.natAbs
    else
      let wrapped := cShifted % (2 ^ ctx.nbits)
      RFloat.Real false ctx.scale wrapped
  | _ => RFloat.Nan

/-- The data carried by a `Split` (src/split.rs is not among the
extracted sources): the truncated high part `(sign, exp, c)`, the three
rounding bits, and the exact lost low part. -/
structure SplitRes where
  sign : Bool
  exp : Int
  c : Nat
  halfway : Bool
  quarter : Bool
  sticky : Bool
  lost : RFloat
  deriving DecidableEq, Repr

/-- The digit of `(-1)^s * c * 2^exp` at binary position `k` (spec §3:
`get_bit`). -/
def bitAt (exp : Int) (c : Nat) (k : Int) : Bool :=
  if k ≥ exp then c.testBit (k - exp).toNat else false

/-- Whether some digit of `(-1)^s * c * 2^exp` strictly below binary
position `k` is non-zero. -/
def anyBitBelow (exp : Int) (c : Nat) (k : Int) : Bool :=
  if k > exp then decide (c % 2 ^ (k - exp).toNat ≠ 0) else false

/-- Modelled from the spec: `Split::new` (src/split.rs is not among the
extracted sources).  Spec §4.1: split `(s, exp, c)` at digit position `n`;
the high part keeps the digits strictly above `n` with exponent `n + 1`
(`exp(high) = n+1`, §3), `halfway` is the digit at `n`, `quarter` the
digit at `n - 1`, `sticky` whether anything strictly below `n - 1` is
non-zero, and `lost` is the exact low part; when the cut is below all
significant digits the high part is the value itself. -/
def splitNew (s : Bool) (exp : Int) (c : Nat) (n : Int) : SplitRes :=
  let e : Int := exp + (bitlen c : Int) - 1
  if n ≥ e then
    { sign := s, exp := n + 1, c := 0,
      halfway := bitAt exp c n,
      quarter := bitAt exp c (n - 1),
      sticky := anyBitBelow exp c (n - 1),
      lost := RFloat.Real s exp c }
  else if n < exp then
    { sign := s, exp := exp, c := c,
      halfway := false, quarter := false, sticky := false,
      lost := RFloat.Real s n 0 }
  else
    let offset := (n - exp + 1).toNat
    let cLo := c &&& bitmask offset
    { sign := s, exp := n + 1, c := c >>> offset,
      halfway := c.testBit (offset - 1),
      quarter := if offset ≥ 2 then c.testBit (offset - 2) else false,
      sticky := if offset ≥ 2 then decide (cLo &&& bitmask (offset - 1) ≠ 0)
                else false,
      lost := RFloat.Real s exp cLo }

/-- `FixedContext::round` from src/fixed/round.rs, lines 173-280, for the
finite non-zero input `(-1)^s * c * 2^exp`.  Step 1 computes the rounding
parameters with only `min_n = scale - 1` set, which yields
`(None, scale - 1)` (see `roundParams`); step 2 splits at that digit;
step 3 finalizes with the kernel; step 4 compares against
`maxval`/`minval` and wraps or saturates. -/
def FixedContext.roundFinite (ctx : FixedContext) (s : Bool) (exp : Int)
    (c : Nat) : Fixed :=
  let n : Int := ctx.scale - 1
  let split := splitNew s exp c n
  let inexact := !split.lost.isZero
  let rounded := roundFinalize
    { sign := s, exp := split.exp, c := split.c, halfway := split.halfway,
      quarter := split.quarter, sticky := split.sticky } none ctx.rm
  if rounded.isZero then
    { num := RFloat.Real false 0 0, flags := { inexact := inexact }, ctx := ctx }
  else
    let mx := ctx.maxval
    let mn := ctx.minval
    if cmpRFloat rounded mx.num = some .gt then
      { num := match ctx.overflow with
               | .Wrap => ctx.roundWrap rounded
               | .Saturate => mx.num,
        flags := { inexact := inexact, overflow := true }, ctx := ctx }
    else if cmpRFloat rounded mn.num = some .lt then
      { num := match ctx.overflow with
               | .Wrap => ctx.roundWrap rounded
               | .Saturate => mn.num,
        flags := { inexact := inexact, underflow := false }, ctx := ctx }
    else
      { num := rounded, flags := { inexact := inexact }, ctx := ctx }

/-- `FixedContext::round` from src/fixed/round.rs, lines 173-280: the
class dispatch.  Zero maps to zero; an infinity is sent through
`match val.sign() { Some(true) => maxval, _ => minval }` (lines 185-188);
NaN maps to zero with `invalid`; finite non-zero values go through the
kernel. -/
def FixedContext.round (ctx : FixedContext) (val : RFloat) : Fixed :=
  if val.isZero then
    { num := RFloat.Real false 0 0, flags := {}, ctx := ctx }
  else if val.isInfinite then
    match val.sign? with
    | some true => ctx.maxval
    | _ => ctx.minval
  else if val.isNar then
    { num := RFloat.Real false 0 0, flags := { invalid := true }, ctx := ctx }
  else
    match val with
    | .Real s exp c => ctx.roundFinite s exp c
    | _ => { num := RFloat.Nan, flags := {}, ctx := ctx }

/-- The embedded state of a bounded-precision `Float`
(src/float/number.rs): only the numerical payload matters for the claims
below. -/
structure FloatVal where
  num : RFloat
  deriving DecidableEq, Repr

/-- `Float::is_finite` from src/float/number.rs, lines 107-109. -/
def FloatVal.isFinite (x : FloatVal) : Bool :=
  x.num.isFinite

/-- `Float::is_infinite` from src/float/number.rs, lines 111-113: the
source returns `self.num.is_finite()`. -/
def FloatVal.isInfinite (x : FloatVal) : Bool :=
  x.num.isFinite

/-- The IEEE 754 format parameters `(es, nbits)` (the context type lives
in src/ieee754/round.rs, not among the extracted sources; the derived
quantities below are the ones spec §3 defines and src/ieee754/number.rs
uses through accessors). -/
structure IEEE754Ctx where
  es : Nat
  nbits : Nat
  deriving DecidableEq, Repr

/-- `max_m = nbits - es - 1`: width of the trailing significand field. -/
def IEEE754Ctx.maxM (ctx : IEEE754Ctx) : Nat :=
  ctx.nbits - ctx.es - 1

/-- `emax = 2^(es-1) - 1`. -/
def IEEE754Ctx.emax (ctx : IEEE754Ctx) : Int :=
  2 ^ (ctx.es - 1) - 1

/-- `emin = 1 - emax`. -/
def IEEE754Ctx.emin (ctx : IEEE754Ctx) : Int :=
  1 - ctx.emax

/-- `expmin = emin - max_m`. -/
def IEEE754Ctx.expmin (ctx : IEEE754Ctx) : Int :=
  ctx.emin - (ctx.maxM : Int)

/-- `IEEE754Val` from src/ieee754/number.rs, lines 90-112. -/
inductive IEEE754Val where
  | PosZero
  | NegZero
  | Subnormal (s : Bool) (c : Nat)
  | Normal (s : Bool) (exp : Int) (c : Nat)
  | PosInfinity
  | NegInfinity
  | Nan (s : Bool) (quiet : Bool) (payload : Nat)
  deriving DecidableEq, Repr

/-- `From<IEEE754> for RFloat` from src/ieee754/number.rs, lines
323-334: both zeros map to the canonical `RFloat` zero, subnormals use
`expmin`, NaN loses its sign and payload. -/
def IEEE754Val.toRFloat (ctx : IEEE754Ctx) : IEEE754Val → RFloat
  | .PosZero | .NegZero => RFloat.Real false 0 0
  | .Subnormal s c => RFloat.Real s ctx.expmin c
  | .Normal s exp c => RFloat.Real s exp c
  | .PosInfinity => RFloat.PosInfinity
  | .NegInfinity => RFloat.NegInfinity
  | .Nan _ _ _ => RFloat.Nan

/-- `PartialOrd for IEEE754` from src/ieee754/number.rs, lines 348-352:
convert both operands to `RFloat` and compare there. -/
def ieeeCmp (ctx : IEEE754Ctx) (x y : IEEE754Val) : Option Ordering :=
  cmpRFloat (x.toRFloat ctx) (y.toRFloat ctx)

/-- `PartialEq for IEEE754` from src/ieee754/number.rs, lines 354-358:
`self.partial_cmp(other) == Some(Ordering::Equal)`. -/
def ieeeEq (ctx : IEEE754Ctx) (x y : IEEE754Val) : Bool :=
  ieeeCmp ctx x y == some .eq

/-- `IEEE754::into_bits` from src/ieee754/number.rs, lines 175-215: pack
the value into an `nbits`-wide pattern `[sign | exp field | trailing]`.
The `Normal` exponent field `exp + max_m + emax` is non-negative for any
well-formed normal; `Int.toNat` makes the embedding total. -/
def intoBits (ctx : IEEE754Ctx) (v : IEEE754Val) : Nat :=
  let su : Bool × Nat :=
    match v with
    | .PosZero => (false, 0)
    | .NegZero => (true, 0)
    | .Subnormal s c => (s, c)
    | .Normal s exp c =>
      let m := ctx.maxM
      let efield := (exp + (m : Int) + ctx.emax).toNat <<< m
      let mfield := c &&& bitmask m
      (s, mfield ||| efield)
    | .PosInfinity => (false, bitmask ctx.es <<< ctx.maxM)
    | .NegInfinity => (true, bitmask ctx.es <<< ctx.maxM)
    | .Nan s q payload =>
      let m := ctx.maxM
      let efield := bitmask ctx.es <<< m
      let qfield := if q then 1 <<< (m - 1) else 0
      (s, payload ||| qfield ||| efield)
  if su.1 then su.2 ||| (1 <<< (ctx.nbits - 1)) else su.2

/-- The quiet bit of a NaN bit pattern: the MSB of the trailing
significand field (spec §4.6). -/
def extractQuiet (ctx : IEEE754Ctx) (b : Nat) : Bool :=
  b.testBit (ctx.maxM - 1)

/-- The payload of a NaN bit pattern: the trailing significand field
below the quiet bit (spec §4.6). -/
def extractPayload (ctx : IEEE754Ctx) (b : Nat) : Nat :=
  b % 2 ^ (ctx.maxM - 1)

/-! ## Theorems -/

/-- `round_increment` agrees with the claim's decision table, routed
through `to_direction`. -/
theorem roundIncrement_eq_spec (sign : Bool) (c : Nat) (h st : Bool)
    (rm : RoundingMode) :
    roundIncrement sign c h st rm =
      roundIncrementSpec (rm.toDirection sign).1 h st (rm.toDirection sign).2 c := by
  cases rm <;> cases sign <;> cases h <;> cases st <;> rfl

/-- Claim C1: for every truncated split `(sign, exp, c, halfway, quarter,
sticky)`, every optional `max_p` and every rounding mode, `round_finalize`
returns `Real(sign, exp', c')` where, with `s' = quarter OR sticky`, `c`
is incremented by 1 exactly when the decision table on
`(is_nearest, halfway, s', direction) = mode.to_direction(sign)`
prescribes it, and if `max_p` is given and the incremented significand
has bit length greater than `max_p`, the significand is shifted right by
one and the exponent is incremented (carry). -/
theorem round_finalize_decision_table (split : RoundPrepareResult)
    (p : Option Nat) (rm : RoundingMode) :
    roundFinalize split p rm = roundFinalizeSpec split p rm := by
  simp only [roundFinalize, roundFinalizeSpec, roundIncrement_eq_spec]

/-- Claim C2: `round_params` halts (here: returns `none`) when neither
`max_p` nor `min_n` is set; returns `(None, min_n)` when only `min_n` is
set; `(Some max_p, e(v) - max_p)` when only `max_p` is set; and
`(Some max_p, max(min_n, e(v) - max_p))` when both are set.  `e` stands
for `e(v)` of the finite non-zero input. -/
theorem round_params_cases :
    (∀ e : Int, roundParams none none e = none) ∧
    (∀ (mn e : Int), roundParams none (some mn) e = some (none, mn)) ∧
    (∀ (mp : Nat) (e : Int),
      roundParams (some mp) none e = some (some mp, e - (mp : Int))) ∧
    (∀ (mp : Nat) (mn e : Int),
      roundParams (some mp) (some mn) e =
        some (some mp, max mn (e - (mp : Int)))) :=
  ⟨fun _ => rfl, fun _ _ => rfl, fun _ _ => rfl, fun _ _ _ => rfl⟩

/-- Claim C3 is false on the code: for the value `32 = Real(false, 5, 1)`
and the cut position `n = 0` — which `round_params` selects for the
context with only `min_n = 0` set (note `e(32) = 5`) — `split_at` returns
the non-zero high part `Real(false, 5, 1)` whose exponent is `5`, not
`n + 1 = 1`; `Real::split` of src/number.rs does the same.  The exponent
assertion in `round_prepare` therefore cannot hold on this input. -/
theorem split_at_high_exponent_violated :
    roundParams none (some 0) 5 = some (none, 0) ∧
    (splitAt false 5 1 0).1 = RFloat.Real false 5 1 ∧
    (splitAt false 5 1 0).1.isZero = false ∧
    (RFloat.split (RFloat.Real false 5 1) 0).1 = RFloat.Real false 5 1 ∧
    ((5 : Int) ≠ 0 + 1) := by
  refine ⟨rfl, by decide, by decide, by decide, by decide⟩

/-- Claim C5 is false on the code: `FixedContext::round` matches
`Some(true)` — the sign of negative infinity — to `maxval`, so `+Inf`
lands on `minval` and `-Inf` on `maxval`, the opposite of the claim (and
of the comment in the source, lines 183-184).  Shown on the signed 4-bit
context with scale 0: `round(+Inf) = -8 = minval ≠ 7 = maxval`. -/
theorem fixed_round_infinities_swapped :
    (FixedContext.round ⟨true, 0, 4, .ToZero, .Wrap⟩ RFloat.PosInfinity).num =
      (FixedContext.minval ⟨true, 0, 4, .ToZero, .Wrap⟩).num ∧
    (FixedContext.round ⟨true, 0, 4, .ToZero, .Wrap⟩ RFloat.NegInfinity).num =
      (FixedContext.maxval ⟨true, 0, 4, .ToZero, .Wrap⟩).num ∧
    (FixedContext.minval ⟨true, 0, 4, .ToZero, .Wrap⟩).num ≠
      (FixedContext.maxval ⟨true, 0, 4, .ToZero, .Wrap⟩).num := by
  refine ⟨by decide, by decide, by decide⟩

/-- Claim C6 is false on the code: on the signed 4-bit context with scale
0 and policy `Wrap`, rounding `-9 = Real(true, 0, 9)` (kernel-exact, and
below `minval = -8`) wraps to `((-9 + 8) tmod 16) - 8 = -9`, because
`rug`'s `%` truncates toward zero; the result is still strictly below
`minval`, outside the representable range. -/
theorem fixed_wrap_result_out_of_range :
    (FixedContext.round ⟨true, 0, 4, .ToZero, .Wrap⟩
        (RFloat.Real true 0 9)).num = RFloat.Real true 0 9 ∧
    cmpRFloat (RFloat.Real true 0 9)
        (FixedContext.minval ⟨true, 0, 4, .ToZero, .Wrap⟩).num = some .lt := by
  refine ⟨by decide, by decide⟩

/-- Claim C7 is false on the code: the below-`minval` branch of
`FixedContext::round` (lines 255-268) sets `underflow: false` but never
`overflow`, so rounding `-9` on the signed 4-bit context with policy
`Saturate` clamps to `minval` with the overflow flag still clear. -/
theorem fixed_overflow_flag_missing_below_minval :
    (FixedContext.round ⟨true, 0, 4, .ToZero, .Saturate⟩
        (RFloat.Real true 0 9)).num =
      (FixedContext.minval ⟨true, 0, 4, .ToZero, .Saturate⟩).num ∧
    (FixedContext.round ⟨true, 0, 4, .ToZero, .Saturate⟩
        (RFloat.Real true 0 9)).flags.overflow = false := by
  refine ⟨by decide, by decide⟩

/-- Claim C8 is false on the code: `Float::is_infinite` returns
`self.num.is_finite()`, so it answers `false` on `+Inf` and `true` on the
finite value 1 — the exact opposite of "true iff the value is ±∞". -/
theorem float_is_infinite_inverted :
    FloatVal.isInfinite ⟨RFloat.PosInfinity⟩ = false ∧
    FloatVal.isInfinite ⟨RFloat.NegInfinity⟩ = false ∧
    FloatVal.isInfinite ⟨RFloat.Real false 0 1⟩ = true := by
  refine ⟨by decide, by decide, by decide⟩

/-- The bit mask used by both splits selects the low `k` bits. -/
theorem land_bitmask (c k : Nat) : c &&& bitmask k = c % 2 ^ k := by
  rw [bitmask, Nat.one_shiftLeft]
  exact Nat.and_pow_two_sub_one_eq_mod c k

/-- Exactness of the in-range split branch: the shifted high digits and
the masked low digits recombine to the original value. -/
theorem split_core (exp n : Int) (c off : Nat) (hoff : (off : Int) = n - exp + 1) :
    ((c >>> off : Nat) : ℚ) * (2 : ℚ) ^ (n + 1) +
      ((c &&& bitmask off : Nat) : ℚ) * (2 : ℚ) ^ exp = (c : ℚ) * (2 : ℚ) ^ exp := by
  have h2 : (2 : ℚ) ≠ 0 := by norm_num
  have hexp : (2 : ℚ) ^ (n + 1) = (2 : ℚ) ^ exp * (2 : ℚ) ^ (off : Int) := by
    rw [← zpow_add₀ h2]
    congr 1
    omega
  have hzq : ((2 : ℚ) ^ (off : Int)) = ((2 ^ off : Nat) : ℚ) := by
    rw [zpow_natCast]
    push_cast
    ring
  have hdm : ((c / 2 ^ off : Nat) : ℚ) * ((2 ^ off : Nat) : ℚ) +
      ((c % 2 ^ off : Nat) : ℚ) = (c : ℚ) := by
    rw [← Nat.cast_mul, ← Nat.cast_add]
    norm_cast
    rw [Nat.mul_comm]
    exact Nat.div_add_mod c (2 ^ off)
  rw [land_bitmask, Nat.shiftRight_eq_div_pow, hexp, hzq]
  linear_combination (2 : ℚ) ^ exp * hdm

/-- Claim C4: for every finite value `(-1)^s * c * 2^exp` and every cut
position `n`, the two parts returned by `Real::split` (src/number.rs) sum
exactly to the value under the exact-real interpretation, and likewise
for `Context::split_at` (src/rational/round.rs). -/
theorem split_exactness (s : Bool) (exp : Int) (c : Nat) (n : Int) :
    (RFloat.toRat (RFloat.split (RFloat.Real s exp c) n).1 +
      RFloat.toRat (RFloat.split (RFloat.Real s exp c) n).2 =
      RFloat.toRat (RFloat.Real s exp c)) ∧
    (RFloat.toRat (splitAt s exp c n).1 +
      RFloat.toRat (splitAt s exp c n).2 =
      RFloat.toRat (RFloat.Real s exp c)) := by
  constructor
  · simp only [RFloat.split]
    split_ifs with h0 h1 h2
    · subst h0
      cases s <;> simp [RFloat.toRat]
    · cases s <;> simp [RFloat.toRat]
    · cases s <;> simp [RFloat.toRat]
    · have hcore := split_core exp n c (n - (exp - 1)).toNat (by omega)
      cases s <;> simp only [RFloat.toRat] <;> push_cast
      · linear_combination hcore
      · linear_combination -hcore
  · simp only [splitAt]
    split_ifs with h1 h2
    · cases s <;> simp [RFloat.toRat]
    · cases s <;> simp [RFloat.toRat]
    · have hcore := split_core exp n c (n - (exp - 1)).toNat (by omega)
      cases s <;> simp only [RFloat.toRat] <;> push_cast
      · linear_combination hcore
      · linear_combination -hcore

/-- Or-ing in bits at positions `≥ k` does not change the value modulo
`2^k`. -/
theorem lor_low_mod (a b k : Nat) (hb : ∀ i, i < k → b.testBit i = false) :
    (a ||| b) % 2 ^ k = a % 2 ^ k := by
  apply Nat.eq_of_testBit_eq
  intro i
  by_cases hi : i < k
  · simp [Nat.testBit_mod_two_pow, Nat.testBit_or, hi, hb i hi]
  · simp [Nat.testBit_mod_two_pow, hi]

/-- Claim C9, counterexample: on the half-precision format `(es = 5,
nbits = 16)`, `into_bits` applied to the ill-formed `Nan(false, quiet =
false, payload = 0)` does not halt; it produces exactly the bit pattern
of `+Inf`, whose quiet bit is 0 and whose payload field is 0 — so not
every NaN bit pattern it produces satisfies `quiet = 1` or
`payload ≠ 0`. -/
theorem into_bits_ill_formed_nan_pattern :
    intoBits ⟨5, 16⟩ (.Nan false false 0) = intoBits ⟨5, 16⟩ .PosInfinity ∧
    intoBits ⟨5, 16⟩ (.Nan false false 0) = 31744 ∧
    extractQuiet ⟨5, 16⟩ (intoBits ⟨5, 16⟩ (.Nan false false 0)) = false ∧
    extractPayload ⟨5, 16⟩ (intoBits ⟨5, 16⟩ (.Nan false false 0)) = 0 := by
  refine ⟨by decide, by decide, by decide, by decide⟩

/-- Claim C9, amended: `into_bits` performs no well-formedness check; on
an ill-formed NaN (`quiet = false`, `payload = 0`) it silently produces
the infinity bit pattern.  For every well-formed NaN — `quiet = true` or
`payload ≠ 0`, with the payload inside its `max_m - 1`-bit field — the
produced bit pattern does satisfy `quiet = 1` or `payload ≠ 0`. -/
theorem into_bits_wellformed_nan (ctx : IEEE754Ctx) (s q : Bool)
    (payload : Nat) (hnb : ctx.es + 2 ≤ ctx.nbits)
    (hpl : payload < 2 ^ (ctx.maxM - 1))
    (hwf : q = true ∨ payload ≠ 0) :
    extractQuiet ctx (intoBits ctx (.Nan s q payload)) = true ∨
      extractPayload ctx (intoBits ctx (.Nan s q payload)) ≠ 0 := by
  have hm : 1 ≤ ctx.maxM := by
    unfold IEEE754Ctx.maxM
    omega
  cases q with
  | true =>
    left
    unfold extractQuiet intoBits
    cases s <;> simp [Nat.testBit_or, Nat.testBit_shiftLeft]
  | false =>
    right
    have hp : payload ≠ 0 := by
      rcases hwf with hq | hp
      · exact absurd hq (by simp)
      · exact hp
    have hef : ∀ i, i < ctx.maxM - 1 →
        (bitmask ctx.es <<< ctx.maxM).testBit i = false := by
      intro i hi
      rw [Nat.testBit_shiftLeft]
      have hno : ¬ ctx.maxM ≤ i := by omega
      simp [hno]
    have hsf : ∀ i, i < ctx.maxM - 1 →
        ((bitmask ctx.es <<< ctx.maxM) ||| 1 <<< (ctx.nbits - 1)).testBit i = false := by
      intro i hi
      rw [Nat.testBit_or, hef i hi, Nat.testBit_shiftLeft]
      have hno : ¬ ctx.nbits - 1 ≤ i := by
        have : ctx.maxM ≤ ctx.nbits - 1 := by
          unfold IEEE754Ctx.maxM
          omega
        omega
      simp [hno]
    have hpm : payload % 2 ^ (ctx.maxM - 1) = payload := Nat.mod_eq_of_lt hpl
    have hcore : intoBits ctx (.Nan s false payload) % 2 ^ (ctx.maxM - 1) = payload := by
      show (if s then _ else _) % 2 ^ (ctx.maxM - 1) = payload
      cases s
      · show ((payload ||| (if (false : Bool) then 1 <<< (ctx.maxM - 1) else 0) |||
          bitmask ctx.es <<< ctx.maxM)) % 2 ^ (ctx.maxM - 1) = payload
        simp only [Bool.false_eq_true, if_false, Nat.or_zero]
        rw [lor_low_mod _ _ _ hef, hpm]
      · show ((payload ||| (if (false : Bool) then 1 <<< (ctx.maxM - 1) else 0) |||
          bitmask ctx.es <<< ctx.maxM) ||| 1 <<< (ctx.nbits - 1)) % 2 ^ (ctx.maxM - 1) = payload
        simp only [Bool.false_eq_true, if_false, Nat.or_zero]
        rw [Nat.lor_assoc, lor_low_mod _ _ _ hsf, hpm]
    unfold extractPayload
    rw [hcore]
    exact hp

/-- Witness for `into_bits_wellformed_nan` at the half-precision format
with `quiet = false`, `payload = 1`. -/
theorem into_bits_wellformed_nan_witness :
    extractQuiet ⟨5, 16⟩ (intoBits ⟨5, 16⟩ (.Nan false false 1)) = true ∨
      extractPayload ⟨5, 16⟩ (intoBits ⟨5, 16⟩ (.Nan false false 1)) ≠ 0 :=
  into_bits_wellformed_nan ⟨5, 16⟩ false false 1 (by decide) (by decide)
    (Or.inr (by decide))

/-- The exact-real reading of a finite value through its signed
significand. -/
theorem toRat_real_m (s : Bool) (e : Int) (c : Nat) :
    RFloat.toRat (.Real s e c) =
      (((if s then -(c : Int) else (c : Int)) : Int) : ℚ) * (2 : ℚ) ^ e := by
  cases s
  · simp [RFloat.toRat]
  · simp [RFloat.toRat]

/-- Transport a three-way integer comparison along order-preserving
equivalences. -/
theorem cmp_congr (a b : Int) (x y : ℚ) (hlt : a < b ↔ x < y)
    (heq : (a = b) ↔ (x = y)) : cmpInt a b = cmpRat x y := by
  unfold cmpInt cmpRat
  by_cases h1 : a < b
  · rw [if_pos h1, if_pos (hlt.mp h1)]
  · rw [if_neg h1, if_neg (fun hx => h1 (hlt.mpr hx))]
    by_cases h2 : a = b
    · rw [if_pos h2, if_pos (heq.mp h2)]
    · rw [if_neg h2, if_neg (fun hx => h2 (heq.mpr hx))]

/-- Rescaling a signed significand to a common exponent. -/
theorem val_align (m e b : Int) (h : 0 ≤ e - b) :
    (m : ℚ) * (2 : ℚ) ^ e = ((m * 2 ^ (e - b).toNat : Int) : ℚ) * (2 : ℚ) ^ b := by
  have h2 : (2 : ℚ) ≠ 0 := by norm_num
  have hpow : (2 : ℚ) ^ e = (2 : ℚ) ^ (((e - b).toNat : Int)) * (2 : ℚ) ^ b := by
    rw [← zpow_add₀ h2]
    congr 1
    omega
  rw [hpow]
  push_cast
  rw [zpow_natCast]
  ring

/-- The integer-aligned comparison of two finite values agrees with the
comparison of their exact-real interpretations. -/
theorem cmpReal_eq_cmpRat (s1 : Bool) (e1 : Int) (c1 : Nat) (s2 : Bool)
    (e2 : Int) (c2 : Nat) :
    cmpReal s1 e1 c1 s2 e2 c2 =
      cmpRat (RFloat.toRat (.Real s1 e1 c1)) (RFloat.toRat (.Real s2 e2 c2)) := by
  rw [toRat_real_m, toRat_real_m]
  unfold cmpReal
  by_cases hd : 0 ≤ e1 - e2
  · rw [if_pos hd]
    have hpos : (0 : ℚ) < (2 : ℚ) ^ e2 := zpow_pos (by norm_num) e2
    apply cmp_congr
    · rw [val_align _ e1 e2 hd, mul_lt_mul_right hpos]
      exact Int.cast_lt.symm
    · rw [val_align _ e1 e2 hd]
      constructor
      · intro hab
        rw [hab]
      · intro hab
        have := mul_right_cancel₀ (ne_of_gt hpos) hab
        exact_mod_cast this
  · rw [if_neg hd]
    have hpos : (0 : ℚ) < (2 : ℚ) ^ e1 := zpow_pos (by norm_num) e1
    have hd2 : 0 ≤ e2 - e1 := by omega
    have h1 : -(e1 - e2) = e2 - e1 := by ring
    apply cmp_congr
    · rw [val_align _ e2 e1 hd2, h1, mul_lt_mul_right hpos]
      exact Int.cast_lt.symm
    · rw [val_align _ e2 e1 hd2, h1]
      constructor
      · intro hab
        rw [hab]
      · intro hab
        have := mul_right_cancel₀ (ne_of_gt hpos) hab
        exact_mod_cast this

/-- Claim C10: IEEE 754 equality and ordering go through conversion to
`RFloat` and compare real values — the two signed zeros compare equal
despite distinct constructors and sign bits, every comparison involving
a NaN (including NaN with itself) yields `none`, equality with a NaN is
always false, and two normal values compare exactly as their exact-real
interpretations. -/
theorem ieee754_cmp_by_real_value (ctx : IEEE754Ctx) (x : IEEE754Val)
    (s q : Bool) (pl : Nat) (s1 s2 : Bool) (e1 e2 : Int) (c1 c2 : Nat) :
    ieeeEq ctx .PosZero .NegZero = true ∧
    ieeeCmp ctx (.Nan s q pl) x = none ∧
    ieeeCmp ctx x (.Nan s q pl) = none ∧
    ieeeEq ctx (.Nan s q pl) x = false ∧
    ieeeEq ctx x (.Nan s q pl) = false ∧
    ieeeCmp ctx (.Normal s1 e1 c1) (.Normal s2 e2 c2) =
      some (cmpRat (RFloat.toRat ((IEEE754Val.Normal s1 e1 c1).toRFloat ctx))
                   (RFloat.toRat ((IEEE754Val.Normal s2 e2 c2).toRFloat ctx))) := by
  refine ⟨rfl, ?_, ?_, ?_, ?_, ?_⟩
  · cases x <;> rfl
  · cases x <;> rfl
  · cases x <;> rfl
  · cases x <;> rfl
  · show some (cmpReal s1 e1 c1 s2 e2 c2) = _
    rw [cmpReal_eq_cmpRat]
    rfl

end Mpmfnum
